import Mathlib

/-!
Verification of the ECA (elementary cellular automaton) tilt-edge engine.

The development shallowly embeds the engine functions of
`src/TiltEdgeECA_FillScreen.jsx` (the current revision) and, where they
differ, the older revision `src/TiltEdgeECA_FillScreenv1.jsx` (suffix `V1`).
Rows are lists of naturals (JS `Uint8Array` cells, so a write truncates
modulo 256); the lookup table is a plain list of naturals.
-/

namespace CAArcade

/-- List helper: `getD` at the written index after `set`. -/
theorem getD_set_self {α : Type} (l : List α) (i : ℕ) (a d : α) (h : i < l.length) :
    (l.set i a).getD i d = a := by
  induction l generalizing i with
  | nil => simp at h
  | cons x xs ih =>
    cases i with
    | zero => rfl
    | succ j =>
      simp only [List.set, List.getD, List.get?]
      have := ih j (by simpa using h)
      simpa [List.getD] using this

/-- List helper: `getD` at an untouched index after `set`. -/
theorem getD_set_ne {α : Type} (l : List α) (i j : ℕ) (a d : α) (h : i ≠ j) :
    (l.set i a).getD j d = l.getD j d := by
  induction l generalizing i j with
  | nil => rfl
  | cons x xs ih =>
    cases i with
    | zero =>
      cases j with
      | zero => exact absurd rfl h
      | succ k => rfl
    | succ i' =>
      cases j with
      | zero => rfl
      | succ k =>
        simp only [List.set, List.getD, List.get?]
        have := ih i' k (fun hc => h (by rw [hc]))
        simpa [List.getD] using this

/-- List helper: `getD` on `replicate` inside the range. -/
theorem getD_replicate {α : Type} (n i : ℕ) (a d : α) (h : i < n) :
    (List.replicate n a).getD i d = a := by
  induction n generalizing i with
  | zero => omega
  | succ m ih =>
    cases i with
    | zero => rfl
    | succ j =>
      have := ih j (by omega)
      simpa [List.replicate, List.getD] using this

/-- List helper: `getD` of a mapped range. -/
theorem getD_map_range (f : ℕ → ℕ) (n i : ℕ) (h : i < n) :
    (((List.range n).map f).getD i 0) = f i := by
  simp [List.getD, List.getElem?_map, List.getElem?_range h]

/-- List helper: a `getD` value is bounded when all members are. -/
theorem getD_lt_of_forall (l : List ℕ) (i b : ℕ) (hb : 0 < b)
    (h : ∀ v ∈ l, v < b) : l.getD i 0 < b := by
  cases hv : l[i]? with
  | none => simpa [List.getD, hv] using hb
  | some v =>
    have : v ∈ l := List.getElem?_mem hv
    simpa [List.getD, hv] using h v this

/-- `makeRuleLUT` of `TiltEdgeECA_FillScreen.jsx` (identical in v1):
`new Array(8).fill(0).map((_, i) => (rule >> i) & 1)`. -/
def makeRuleLUT (rule : ℕ) : List ℕ :=
  (List.range 8).map (fun i => (rule >>> i) &&& 1)

/-- `stepECA` of `TiltEdgeECA_FillScreen.jsx` (identical in v1).
Fixed boundary (no wrap): out-of-bounds neighbours are 0; the
neighbourhood index is `(left << 2) | (mid << 1) | right`; the write into
the `Uint8Array` truncates modulo 256 and an out-of-range `lut` read
yields `undefined`, stored as 0 (the `getD` default). -/
def stepECA (prev lut : List ℕ) : List ℕ :=
  (List.range prev.length).map (fun i =>
    let left := if i = 0 then 0 else prev.getD (i - 1) 0
    let mid := prev.getD i 0
    let right := if i = prev.length - 1 then 0 else prev.getD (i + 1) 0
    (lut.getD ((left <<< 2) ||| (mid <<< 1) ||| right) 0) % 256)

/-- Iterated `stepECA`: the automaton row after `n` steps from `seed`. -/
def itStep (lut seed : List ℕ) : ℕ → List ℕ
  | 0 => seed
  | n + 1 => stepECA (itStep lut seed n) lut

/-- The single-seed initial row built by `resetSimulation` in mode
`"single"`: a zero row of width `W` with cell `⌊W/2⌋` set to 1. -/
def singleSeed (W : ℕ) : List ℕ :=
  (List.replicate W 0).set (W / 2) 1

/-- The four screen edges of the engine. -/
inductive Edge
  | top
  | bottom
  | left
  | right
deriving DecidableEq, Repr

/-- `dominantEdgeFromTilt` of `TiltEdgeECA_FillScreen.jsx`. Note the
deliberate left/right swap in the gamma branch (the in-source comment
calls it the Honor Pad 9 gamma sign fix). Angles are modelled as
rationals; `null` is `none`. -/
def dominantEdgeFromTilt (beta gamma deadzone : ℚ) : Option Edge :=
  let ab := |beta|
  let ag := |gamma|
  if ab < deadzone ∧ ag < deadzone then none
  else if ag ≥ ab then some (if gamma ≥ 0 then Edge.left else Edge.right)
  else some (if beta ≥ 0 then Edge.top else Edge.bottom)

/-- `dominantEdgeFromTilt` of the older revision
`TiltEdgeECA_FillScreenv1.jsx`: same structure, gamma branch not
swapped. -/
def dominantEdgeFromTiltV1 (beta gamma deadzone : ℚ) : Option Edge :=
  let ab := |beta|
  let ag := |gamma|
  if ab < deadzone ∧ ag < deadzone then none
  else if ag ≥ ab then some (if gamma ≥ 0 then Edge.right else Edge.left)
  else some (if beta ≥ 0 then Edge.top else Edge.bottom)

/-- `mapToScreen` of `TiltEdgeECA_FillScreen.jsx` (the same formulas as in
v1): maps CA coordinates `(t, x)` to logical-grid pixel coordinates
`(sx, sy)` depending on the active edge. -/
def mapToScreen (edge : Edge) (t x W H : ℕ) : ℕ × ℕ :=
  match edge with
  | Edge.bottom => (x, t)
  | Edge.top => (x, H - 1 - t)
  | Edge.left => (t, x)
  | Edge.right => (H - 1 - t, x)

/-- Logical grid width `gw` from `ensureOffscreen`: `H` for left/right,
`W` otherwise. -/
def offscreenW (edge : Edge) (W H : ℕ) : ℕ :=
  match edge with
  | Edge.left => H
  | Edge.right => H
  | _ => W

/-- Logical grid height `gh` from `ensureOffscreen`: `W` for left/right,
`H` otherwise. -/
def offscreenH (edge : Edge) (W H : ℕ) : ℕ :=
  match edge with
  | Edge.left => W
  | Edge.right => W
  | _ => H

/-- The ring-buffer state held in `gridRef`: `rows` is the circular
buffer of `H` rows, `head` points at the most recently written row,
`current` caches the most recent row. -/
structure GridState where
  rows : List (List ℕ)
  head : ℕ
  current : List ℕ
deriving DecidableEq, Repr

/-- The buffer part of `resetSimulation`: `H` fresh zero rows of width
`W`, the seed copied into row 0, `head = 0`, `current = seed`. -/
def resetGrid (W H : ℕ) (seed : List ℕ) : GridState :=
  { rows := (List.replicate H (List.replicate W 0)).set 0 seed
    head := 0
    current := seed }

/-- One simulation step of the `tick` loop body:
`next = stepECA(current, lut); head = (head+1) % H; rows[head].set(next);
current = next`. -/
def advance (H : ℕ) (lut : List ℕ) (g : GridState) : GridState :=
  let next := stepECA g.current lut
  let h2 := (g.head + 1) % H
  { rows := g.rows.set h2 next
    head := h2
    current := next }

/-- `n` consecutive simulation steps of the `tick` loop. -/
def advanceN (H : ℕ) (lut : List ℕ) : ℕ → GridState → GridState
  | 0, g => g
  | n + 1, g => advance H lut (advanceN H lut n g)

/-- The per-frame edge resolution of `tick`:
`desiredEdge = manualEdge ?? (motionOn ? tiltRef.current.edge : null) ?? activeEdge`. -/
def resolveEdge (manual : Option Edge) (motionOn : Bool) (tiltEdge : Option Edge)
    (active : Edge) : Edge :=
  match manual with
  | some e => e
  | none =>
    match (if motionOn then tiltEdge else none) with
    | some e => e
    | none => active

/-- The edge-resolution-plus-stepping part of one `tick` frame: resolve
the edge; on change, set the active edge and reset the simulation before
stepping; then apply the frame's ECA steps. -/
def tickFrame (manual : Option Edge) (motionOn : Bool) (tiltEdge : Option Edge)
    (active : Edge) (g : GridState) (W H : ℕ) (seed lut : List ℕ)
    (nSteps : ℕ) : Edge × GridState :=
  let desired := resolveEdge manual motionOn tiltEdge active
  if desired ≠ active then
    (desired, advanceN H lut nSteps (resetGrid W H seed))
  else
    (active, advanceN H lut nSteps g)

/-- The `while (stepAccumulator >= 1)` loop of `tick`: repeatedly
subtract 1 from the accumulator, counting one ECA step per iteration.
Returns the number of steps and the remaining accumulator. -/
def consumeSteps (a : ℚ) : ℕ × ℚ :=
  if h : 1 ≤ a then
    let r := consumeSteps (a - 1)
    (r.1 + 1, r.2)
  else
    (0, a)
termination_by (⌊a⌋).toNat
decreasing_by
  have h1 : (1 : ℤ) ≤ ⌊a⌋ := Int.le_floor.mpr (by exact_mod_cast h)
  have h2 : ⌊a - 1⌋ = ⌊a⌋ - 1 := by
    simpa using Int.floor_sub_int a 1
  omega

/-- The accumulator logic of one `tick` frame of
`TiltEdgeECA_FillScreen.jsx`: `stepAccumulator += dt * stepsPerSec`; when
running, drain whole steps in the while loop; when paused, apply no step
and clamp the accumulator to 2. -/
def tickAccumulator (running : Bool) (acc incr : ℚ) : ℕ × ℚ :=
  let a := acc + incr
  if running then consumeSteps a else (0, min a 2)

/-- The tilt-speed curve of `TiltEdgeECA_FillScreen.jsx` `tick`:
`stepsPerSec = 30 + 140 * speed01`. -/
def stepsPerSec (speed01 : ℚ) : ℚ :=
  30 + 140 * speed01

/-- The tilt-speed curve of `TiltEdgeECA_FillScreenv1.jsx` `tick`:
`stepsPerSec = 30 + (800 - 30) * Math.pow(s01, 1.35)` (a real power, so
this definition is necessarily non-executable). -/
noncomputable def stepsPerSecV1 (speed01 : ℝ) : ℝ :=
  30 + (800 - 30) * speed01 ^ (1.35 : ℝ)

/-- Claim C2: for every ruleCode in [0,255], the lookup table has 8
entries and entry `i` equals bit `i` of the rule code, i.e.
`(ruleCode >> i) & 1 = ruleCode / 2^i % 2`; the construction is a pure
total function (determinism is definitional in this embedding). -/
theorem makeRuleLUT_spec (rule : ℕ) (hrule : rule ≤ 255) :
    (makeRuleLUT rule).length = 8 ∧
    ∀ i, i < 8 → (makeRuleLUT rule).getD i 0 = rule / 2 ^ i % 2 := by
  constructor
  · simp [makeRuleLUT]
  · intro i hi
    rw [makeRuleLUT, getD_map_range _ _ _ hi, Nat.shiftRight_eq_div_pow,
      Nat.and_one_is_mod]

/-- Witness for C2 at rule 90. -/
theorem makeRuleLUT_spec_witness :
    90 ≤ 255 ∧
    ((makeRuleLUT 90).length = 8 ∧
      ∀ i, i < 8 → (makeRuleLUT 90).getD i 0 = 90 / 2 ^ i % 2) :=
  ⟨by decide, makeRuleLUT_spec 90 (by decide)⟩

/-- Bit helper: for binary cells the neighbourhood index
`(left << 2) | (mid << 1) | right` equals `4*left + 2*mid + right`. -/
theorem shiftOrEq (l m r : ℕ) (hl : l ≤ 1) (hm : m ≤ 1) (hr : r ≤ 1) :
    (l <<< 2) ||| (m <<< 1) ||| r = 4 * l + 2 * m + r := by
  interval_cases l <;> interval_cases m <;> interval_cases r <;> rfl

/-- Claim C1: for a row of binary cells and an 8-entry bit lookup table,
`stepECA` preserves the row length and computes every cell as
`lut[left*4 + mid*2 + right]` with missing neighbours beyond either end
treated as 0 (purity and determinism are definitional in this
embedding). -/
theorem stepECA_spec (prev lut : List ℕ)
    (hcell : ∀ c ∈ prev, c ≤ 1) (hlen : lut.length = 8)
    (hlut : ∀ v ∈ lut, v ≤ 1) :
    (stepECA prev lut).length = prev.length ∧
    ∀ i, i < prev.length →
      (stepECA prev lut).getD i 0 =
        lut.getD (4 * (if i = 0 then 0 else prev.getD (i - 1) 0)
          + 2 * prev.getD i 0
          + (if i = prev.length - 1 then 0 else prev.getD (i + 1) 0)) 0 := by
  have hp : ∀ j, prev.getD j 0 ≤ 1 := by
    intro j
    have := getD_lt_of_forall prev j 2 (by norm_num)
      (fun v hv => Nat.lt_succ_of_le (hcell v hv))
    omega
  have hq : ∀ j, lut.getD j 0 ≤ 1 := by
    intro j
    have := getD_lt_of_forall lut j 2 (by norm_num)
      (fun v hv => Nat.lt_succ_of_le (hlut v hv))
    omega
  constructor
  · simp [stepECA]
  · intro i hi
    have hstep : (stepECA prev lut).getD i 0 =
        (lut.getD (((if i = 0 then (0 : ℕ) else prev.getD (i - 1) 0) <<< 2) |||
          ((prev.getD i 0) <<< 1) |||
          (if i = prev.length - 1 then 0 else prev.getD (i + 1) 0)) 0) % 256 := by
      unfold stepECA
      rw [getD_map_range _ _ _ hi]
    have hl : (if i = 0 then (0 : ℕ) else prev.getD (i - 1) 0) ≤ 1 := by
      split
      · omega
      · exact hp _
    have hr2 : (if i = prev.length - 1 then (0 : ℕ) else prev.getD (i + 1) 0) ≤ 1 := by
      split
      · omega
      · exact hp _
    rw [hstep, shiftOrEq _ _ _ hl (hp i) hr2,
      Nat.mod_eq_of_lt (lt_of_le_of_lt (hq _) (by norm_num))]

/-- Witness for C1 on the row `[0, 1]` with the rule-110 table. -/
theorem stepECA_spec_witness :
    (∀ c ∈ ([0, 1] : List ℕ), c ≤ 1) ∧
    (makeRuleLUT 110).length = 8 ∧
    (∀ v ∈ makeRuleLUT 110, v ≤ 1) ∧
    ((stepECA [0, 1] (makeRuleLUT 110)).length = ([0, 1] : List ℕ).length ∧
      ∀ i, i < ([0, 1] : List ℕ).length →
        (stepECA [0, 1] (makeRuleLUT 110)).getD i 0 =
          (makeRuleLUT 110).getD
            (4 * (if i = 0 then 0 else ([0, 1] : List ℕ).getD (i - 1) 0)
              + 2 * ([0, 1] : List ℕ).getD i 0
              + (if i = ([0, 1] : List ℕ).length - 1 then 0
                  else ([0, 1] : List ℕ).getD (i + 1) 0)) 0) :=
  ⟨by decide, by decide, by decide,
    stepECA_spec [0, 1] (makeRuleLUT 110) (by decide) (by decide) (by decide)⟩

/-- Claim C3: from the single-seed row of width 7 (active cell at index
3), rule 90 produces exactly the three rows of the golden Sierpinski
sequence. -/
theorem rule90Golden_spec :
    singleSeed 7 = [0, 0, 0, 1, 0, 0, 0] ∧
    itStep (makeRuleLUT 90) (singleSeed 7) 1 = [0, 0, 1, 0, 1, 0, 0] ∧
    itStep (makeRuleLUT 90) (singleSeed 7) 2 = [0, 1, 0, 0, 0, 1, 0] ∧
    itStep (makeRuleLUT 90) (singleSeed 7) 3 = [1, 0, 1, 0, 1, 0, 1] := by
  decide

/-- Claim C4 counterexample: the current `dominantEdgeFromTilt` of
`TiltEdgeECA_FillScreen.jsx` returns `left` (not `right`, as claimed)
at `beta = 3, gamma = 10, deadzone = 6`, because its gamma branch is
deliberately swapped. -/
theorem dominantEdge_counterexample :
    dominantEdgeFromTilt 3 10 6 = some Edge.left ∧
    ¬ dominantEdgeFromTilt 3 10 6 = some Edge.right := by
  decide

/-- Claim C4 (amended): both variants return `none` inside the deadzone
and decide by beta sign when beta dominates; when gamma dominates the
current variant returns `left` for `gamma ≥ 0` and `right` otherwise
(the swap for the Honor Pad), while the v1 variant returns `right` for
`gamma ≥ 0` and `left` otherwise. Hence `dominantEdge(5,5,6)` is `none`
and `dominantEdge(10,3,6)` is `top` in both variants, and
`dominantEdge(3,10,6)` is `left` in the current variant and `right` in
v1. -/
theorem dominantEdge_spec (beta gamma deadzone : ℚ) :
    (|beta| < deadzone ∧ |gamma| < deadzone →
      dominantEdgeFromTilt beta gamma deadzone = none ∧
      dominantEdgeFromTiltV1 beta gamma deadzone = none) ∧
    (¬ (|beta| < deadzone ∧ |gamma| < deadzone) → |gamma| ≥ |beta| →
      dominantEdgeFromTilt beta gamma deadzone =
        some (if gamma ≥ 0 then Edge.left else Edge.right) ∧
      dominantEdgeFromTiltV1 beta gamma deadzone =
        some (if gamma ≥ 0 then Edge.right else Edge.left)) ∧
    (¬ (|beta| < deadzone ∧ |gamma| < deadzone) → |gamma| < |beta| →
      dominantEdgeFromTilt beta gamma deadzone =
        some (if beta ≥ 0 then Edge.top else Edge.bottom) ∧
      dominantEdgeFromTiltV1 beta gamma deadzone =
        some (if beta ≥ 0 then Edge.top else Edge.bottom)) ∧
    dominantEdgeFromTilt 5 5 6 = none ∧
    dominantEdgeFromTilt 10 3 6 = some Edge.top ∧
    dominantEdgeFromTilt 3 10 6 = some Edge.left ∧
    dominantEdgeFromTiltV1 5 5 6 = none ∧
    dominantEdgeFromTiltV1 10 3 6 = some Edge.top ∧
    dominantEdgeFromTiltV1 3 10 6 = some Edge.right := by
  refine ⟨?_, ?_, ?_, by decide, by decide, by decide, by decide, by decide,
    by decide⟩
  · intro h
    constructor <;> simp only [dominantEdgeFromTilt, dominantEdgeFromTiltV1] <;>
      rw [if_pos h]
  · intro h hge
    constructor <;> simp only [dominantEdgeFromTilt, dominantEdgeFromTiltV1] <;>
      rw [if_neg h, if_pos hge]
  · intro h hlt
    constructor <;> simp only [dominantEdgeFromTilt, dominantEdgeFromTiltV1] <;>
      rw [if_neg h, if_neg (not_le.mpr hlt)]

/-- Witness for C4 (amended) at `beta = -2, gamma = 9, deadzone = 6`. -/
theorem dominantEdge_spec_witness :
    dominantEdgeFromTilt (-2) 9 6 = some Edge.left ∧
    dominantEdgeFromTiltV1 (-2) 9 6 = some Edge.right := by
  have h := (dominantEdge_spec (-2) 9 6).2.1 (by norm_num) (by norm_num)
  have hg : ((9 : ℚ) ≥ 0) = True := by norm_num
  simpa [hg] using h

/-- Claim C8: the per-edge projection formulas of `mapToScreen`, and the
fact that the image always lies inside the logical grid (`W × H` for
top/bottom, `H × W` for left/right). -/
theorem mapToScreen_spec (t x W H : ℕ) (ht : t < H) (hx : x < W) :
    mapToScreen Edge.bottom t x W H = (x, t) ∧
    mapToScreen Edge.top t x W H = (x, H - 1 - t) ∧
    mapToScreen Edge.left t x W H = (t, x) ∧
    mapToScreen Edge.right t x W H = (H - 1 - t, x) ∧
    ∀ e : Edge, (mapToScreen e t x W H).1 < offscreenW e W H ∧
      (mapToScreen e t x W H).2 < offscreenH e W H := by
  refine ⟨rfl, rfl, rfl, rfl, ?_⟩
  intro e
  cases e <;> simp only [mapToScreen, offscreenW, offscreenH] <;>
    constructor <;> omega

/-- Witness for C8 at `t = 1, x = 0, W = 1, H = 2`. -/
theorem mapToScreen_spec_witness :
    1 < 2 ∧ 0 < 1 ∧
    (mapToScreen Edge.bottom 1 0 1 2 = (0, 1) ∧
      mapToScreen Edge.top 1 0 1 2 = (0, 2 - 1 - 1) ∧
      mapToScreen Edge.left 1 0 1 2 = (1, 0) ∧
      mapToScreen Edge.right 1 0 1 2 = (2 - 1 - 1, 0) ∧
      ∀ e : Edge, (mapToScreen e 1 0 1 2).1 < offscreenW e 1 2 ∧
        (mapToScreen e 1 0 1 2).2 < offscreenH e 1 2) :=
  ⟨by decide, by decide, mapToScreen_spec 1 0 1 2 (by decide) (by decide)⟩

/-- Drain helper: on a nonnegative accumulator the while loop applies
exactly `⌊a⌋` steps and leaves the fractional part. -/
theorem consumeSteps_eq (a : ℚ) (ha : 0 ≤ a) :
    consumeSteps a = ((⌊a⌋).toNat, a - ⌊a⌋) := by
  suffices h : ∀ n (a : ℚ), 0 ≤ a → (⌊a⌋).toNat = n →
      consumeSteps a = ((⌊a⌋).toNat, a - ⌊a⌋) from h _ a ha rfl
  intro n
  induction n with
  | zero =>
    intro a ha h0
    have hfl : ⌊a⌋ = 0 := by
      have h1 : 0 ≤ ⌊a⌋ := Int.floor_nonneg.mpr ha
      omega
    have hna : ¬ 1 ≤ a := by
      intro hc
      have : (1 : ℤ) ≤ ⌊a⌋ := Int.le_floor.mpr (by exact_mod_cast hc)
      omega
    rw [consumeSteps, dif_neg hna, hfl]
    simp
  | succ m ih =>
    intro a ha h0
    have h1 : (1 : ℤ) ≤ ⌊a⌋ := by
      have : 0 ≤ ⌊a⌋ := Int.floor_nonneg.mpr ha
      omega
    have ha1 : 1 ≤ a := by
      have h2 : ((⌊a⌋ : ℤ) : ℚ) ≤ a := Int.floor_le a
      have h3 : (1 : ℚ) ≤ ((⌊a⌋ : ℤ) : ℚ) := by exact_mod_cast h1
      linarith
    have hfloor : ⌊a - 1⌋ = ⌊a⌋ - 1 := by
      simpa using Int.floor_sub_int a 1
    have ih2 := ih (a - 1) (by linarith) (by rw [hfloor]; omega)
    rw [consumeSteps, dif_pos ha1]
    show ((consumeSteps (a - 1)).1 + 1, (consumeSteps (a - 1)).2) = _
    rw [ih2]
    refine Prod.ext ?_ ?_
    · show (⌊a - 1⌋).toNat + 1 = (⌊a⌋).toNat
      rw [hfloor]
      omega
    · show (a - 1) - (⌊a - 1⌋ : ℚ) = a - (⌊a⌋ : ℚ)
      rw [hfloor]
      push_cast
      ring

/-- Claim C5: each frame accumulates `dt * stepsPerSec`; when running,
the while loop applies exactly `⌊accumulator⌋` ECA steps (a natural
number, never negative) and subtracts them from the accumulator; when
paused, zero steps are applied and the accumulator is clamped to the
ceiling 2, and the accumulator stays nonnegative either way. -/
theorem tickAccumulator_spec (running : Bool) (acc incr : ℚ)
    (hacc : 0 ≤ acc) (hincr : 0 ≤ incr) :
    (running = true →
      (tickAccumulator running acc incr).1 = (⌊acc + incr⌋).toNat ∧
      (tickAccumulator running acc incr).2 = (acc + incr) - ⌊acc + incr⌋) ∧
    (running = false →
      (tickAccumulator running acc incr).1 = 0 ∧
      (tickAccumulator running acc incr).2 = min (acc + incr) 2) ∧
    0 ≤ (tickAccumulator running acc incr).2 := by
  have ha : 0 ≤ acc + incr := by linarith
  cases running with
  | true =>
    have hcons := consumeSteps_eq (acc + incr) ha
    refine ⟨fun _ => ?_, fun hc => by simp at hc, ?_⟩
    · simp only [tickAccumulator, if_true]
      rw [hcons]
      exact ⟨rfl, rfl⟩
    · simp only [tickAccumulator, if_true]
      rw [hcons]
      have := Int.fract_nonneg (acc + incr)
      rw [Int.fract] at this
      exact this
  | false =>
    refine ⟨fun hc => by simp at hc, fun _ => ⟨rfl, rfl⟩, ?_⟩
    simp only [tickAccumulator, if_false]
    exact le_min ha (by norm_num)

/-- Witness for C5 at `running = true, acc = 1/2, incr = 2`. -/
theorem tickAccumulator_spec_witness :
    0 ≤ (1 / 2 : ℚ) ∧ 0 ≤ (2 : ℚ) ∧
    ((true = true →
      (tickAccumulator true (1 / 2) 2).1 = (⌊(1 / 2 : ℚ) + 2⌋).toNat ∧
      (tickAccumulator true (1 / 2) 2).2 = ((1 / 2 : ℚ) + 2) - ⌊(1 / 2 : ℚ) + 2⌋) ∧
    (true = false →
      (tickAccumulator true (1 / 2) 2).1 = 0 ∧
      (tickAccumulator true (1 / 2) 2).2 = min ((1 / 2 : ℚ) + 2) 2) ∧
    0 ≤ (tickAccumulator true (1 / 2) 2).2) :=
  ⟨by norm_num, by norm_num,
    tickAccumulator_spec true (1 / 2) 2 (by norm_num) (by norm_num)⟩

/-- Modular helper: two time indices less than one buffer length apart
occupy different buffer slots. -/
theorem mod_ne_of_gap (j m H : ℕ) (hjm : j < m) (hgap : m < j + H) :
    m % H ≠ j % H := by
  intro he
  have hmod : j ≡ m [MOD H] := he.symm
  have hdvd : (H : ℤ) ∣ (m : ℤ) - (j : ℤ) := (Nat.modEq_iff_dvd).mp hmod
  have hpos : (0 : ℤ) < (m : ℤ) - (j : ℤ) := by
    push_cast
    omega
  have := Int.le_of_dvd hpos hdvd
  omega

/-- Ring-buffer invariant: after `n` steps from a reset, `head = n % H`,
`current` is the `n`-th automaton row, the buffer keeps its length, and
every row written at step `j` within the last `H` writes is still at
slot `j % H`. -/
theorem advanceN_invariant (W H : ℕ) (lut seed : List ℕ) (hH : 0 < H)
    (n : ℕ) :
    (advanceN H lut n (resetGrid W H seed)).head = n % H ∧
    (advanceN H lut n (resetGrid W H seed)).current = itStep lut seed n ∧
    (advanceN H lut n (resetGrid W H seed)).rows.length = H ∧
    ∀ j, j ≤ n → n < j + H →
      (advanceN H lut n (resetGrid W H seed)).rows.getD (j % H) [] =
        itStep lut seed j := by
  induction n with
  | zero =>
    refine ⟨by simp [advanceN, resetGrid], rfl, by simp [advanceN, resetGrid], ?_⟩
    intro j hj hlt
    have hj0 : j = 0 := by omega
    subst hj0
    show ((List.replicate H (List.replicate W 0)).set 0 seed).getD (0 % H) [] = seed
    rw [Nat.zero_mod]
    exact getD_set_self _ 0 _ _ (by simpa using hH)
  | succ n ih =>
    obtain ⟨ihh, ihc, ihl, ihr⟩ := ih
    have hhead : (advanceN H lut (n + 1) (resetGrid W H seed)).head = (n + 1) % H := by
      show ((advanceN H lut n (resetGrid W H seed)).head + 1) % H = (n + 1) % H
      rw [ihh]
      simp [Nat.add_mod]
    refine ⟨hhead, ?_, ?_, ?_⟩
    · show stepECA (advanceN H lut n (resetGrid W H seed)).current lut = _
      rw [ihc]
      rfl
    · show ((advanceN H lut n (resetGrid W H seed)).rows.set _ _).length = H
      rw [List.length_set, ihl]
    · intro j hj hlt
      show ((advanceN H lut n (resetGrid W H seed)).rows.set
        (((advanceN H lut n (resetGrid W H seed)).head + 1) % H)
        (stepECA (advanceN H lut n (resetGrid W H seed)).current lut)).getD
        (j % H) [] = itStep lut seed j
      have hh1 : ((advanceN H lut n (resetGrid W H seed)).head + 1) % H
          = (n + 1) % H := by
        rw [ihh]
        simp [Nat.add_mod]
      by_cases hje : j = n + 1
      · subst hje
        rw [hh1]
        rw [getD_set_self _ _ _ _ (by rw [ihl]; exact Nat.mod_lt _ hH)]
        rw [ihc]
        rfl
      · have hjn : j ≤ n := by omega
        rw [hh1, getD_set_ne _ _ _ _ _ (mod_ne_of_gap j (n + 1) H (by omega) hlt)]
        exact ihr j hjn (by omega)

/-- Claim C6: after `n ≥ k` steps (with `k < H`) the row `k` steps older
than `current` is recoverable at buffer index `(head − k + H) mod H`;
and concretely, a depth-4 buffer stepped 6 times still yields the
correct rows at offsets 0–3 while offset 4 no longer yields the original
seed (it was overwritten). -/
theorem historyRecall_spec :
    (∀ (W H : ℕ) (lut seed : List ℕ) (n k : ℕ), 0 < H → k < H → k ≤ n →
      (advanceN H lut n (resetGrid W H seed)).rows.getD
        (((advanceN H lut n (resetGrid W H seed)).head + H - k) % H) [] =
        itStep lut seed (n - k)) ∧
    ((advanceN 4 (makeRuleLUT 90) 6 (resetGrid 7 4 (singleSeed 7))).rows.getD
        (((advanceN 4 (makeRuleLUT 90) 6 (resetGrid 7 4 (singleSeed 7))).head
          + 4 - 0) % 4) [] = itStep (makeRuleLUT 90) (singleSeed 7) 6 ∧
      (advanceN 4 (makeRuleLUT 90) 6 (resetGrid 7 4 (singleSeed 7))).rows.getD
        (((advanceN 4 (makeRuleLUT 90) 6 (resetGrid 7 4 (singleSeed 7))).head
          + 4 - 1) % 4) [] = itStep (makeRuleLUT 90) (singleSeed 7) 5 ∧
      (advanceN 4 (makeRuleLUT 90) 6 (resetGrid 7 4 (singleSeed 7))).rows.getD
        (((advanceN 4 (makeRuleLUT 90) 6 (resetGrid 7 4 (singleSeed 7))).head
          + 4 - 2) % 4) [] = itStep (makeRuleLUT 90) (singleSeed 7) 4 ∧
      (advanceN 4 (makeRuleLUT 90) 6 (resetGrid 7 4 (singleSeed 7))).rows.getD
        (((advanceN 4 (makeRuleLUT 90) 6 (resetGrid 7 4 (singleSeed 7))).head
          + 4 - 3) % 4) [] = itStep (makeRuleLUT 90) (singleSeed 7) 3) ∧
    ¬ (advanceN 4 (makeRuleLUT 90) 6 (resetGrid 7 4 (singleSeed 7))).rows.getD
        (((advanceN 4 (makeRuleLUT 90) 6 (resetGrid 7 4 (singleSeed 7))).head
          + 4 - 4) % 4) [] = singleSeed 7 := by
  refine ⟨?_, by decide, by decide⟩
  intro W H lut seed n k hH hk hkn
  obtain ⟨hh, _, _, hr⟩ := advanceN_invariant W H lut seed hH n
  rw [hh]
  have e1 : n % H + H - k = n % H + (H - k) := by omega
  have e2 : (n % H + (H - k)) % H = (n + (H - k)) % H := by
    simp [Nat.add_mod]
  have e3 : n + (H - k) = (n - k) + H := by omega
  rw [e1, e2, e3, Nat.add_mod_right]
  exact hr (n - k) (by omega) (by omega)

/-- Witness for C6 (general part) at `W = 3, H = 2, n = 2, k = 1`,
rule 90. -/
theorem historyRecall_spec_witness :
    0 < 2 ∧ 1 < 2 ∧ 1 ≤ 2 ∧
    (advanceN 2 (makeRuleLUT 90) 2 (resetGrid 3 2 (singleSeed 3))).rows.getD
      (((advanceN 2 (makeRuleLUT 90) 2 (resetGrid 3 2 (singleSeed 3))).head
        + 2 - 1) % 2) [] = itStep (makeRuleLUT 90) (singleSeed 3) (2 - 1) :=
  ⟨by decide, by decide, by decide,
    historyRecall_spec.1 3 2 (makeRuleLUT 90) (singleSeed 3) 2 1
      (by decide) (by decide) (by decide)⟩

/-- Claim C7: the per-frame resolved edge is
`manual ?? tiltEdge ?? active` (with the sensor edge present only while
motion is on); on a change the frame adopts the new edge and resets the
history before stepping, and on no change the frame steps the incoming
buffer unreset. -/
theorem edgeResolution_spec (manual : Option Edge) (motionOn : Bool)
    (tiltEdge : Option Edge) (active : Edge) (g : GridState) (W H : ℕ)
    (seed lut : List ℕ) (nSteps : ℕ) :
    (∀ e, resolveEdge (some e) motionOn tiltEdge active = e) ∧
    (∀ e, resolveEdge none true (some e) active = e) ∧
    resolveEdge none motionOn none active = active ∧
    resolveEdge none false tiltEdge active = active ∧
    (resolveEdge manual motionOn tiltEdge active ≠ active →
      tickFrame manual motionOn tiltEdge active g W H seed lut nSteps =
        (resolveEdge manual motionOn tiltEdge active,
          advanceN H lut nSteps (resetGrid W H seed))) ∧
    (resolveEdge manual motionOn tiltEdge active = active →
      tickFrame manual motionOn tiltEdge active g W H seed lut nSteps =
        (active, advanceN H lut nSteps g)) := by
  refine ⟨fun e => rfl, fun e => rfl, ?_, rfl, ?_, ?_⟩
  · cases motionOn <;> rfl
  · intro h
    simp only [tickFrame]
    rw [if_pos h]
  · intro h
    simp only [tickFrame]
    rw [if_neg (by simp [h])]

/-- Witness for C7: a manual override to `top` while the active edge is
`bottom` resets the buffer before stepping. -/
theorem edgeResolution_spec_witness :
    tickFrame (some Edge.top) false none Edge.bottom
      (resetGrid 3 2 (singleSeed 3)) 3 2 (singleSeed 3) (makeRuleLUT 90) 1 =
      (Edge.top, advanceN 2 (makeRuleLUT 90) 1 (resetGrid 3 2 (singleSeed 3))) := by
  have h := (edgeResolution_spec (some Edge.top) false none Edge.bottom
    (resetGrid 3 2 (singleSeed 3)) 3 2 (singleSeed 3) (makeRuleLUT 90)
    1).2.2.2.2.1 (by decide)
  simpa [resolveEdge] using h

/-- Claim C9: both speed curves — the current linear
`30 + 140 * speed01` and the v1 power curve `30 + 770 * speed01^1.35` —
are monotonically non-decreasing on `[0, 1]`. -/
theorem speedMonotone_spec (a b : ℚ) (r s : ℝ)
    (h0 : 0 ≤ a) (hab : a ≤ b) (hb : b ≤ 1)
    (hr : 0 ≤ r) (hrs : r ≤ s) (hs : s ≤ 1) :
    stepsPerSec a ≤ stepsPerSec b ∧ stepsPerSecV1 r ≤ stepsPerSecV1 s := by
  constructor
  · unfold stepsPerSec
    linarith
  · unfold stepsPerSecV1
    have hpow : r ^ (1.35 : ℝ) ≤ s ^ (1.35 : ℝ) :=
      Real.rpow_le_rpow hr hrs (by norm_num)
    linarith

/-- Witness for C9 at the endpoints of `[0, 1]`. -/
theorem speedMonotone_spec_witness :
    (0 : ℚ) ≤ 0 ∧ (0 : ℚ) ≤ 1 ∧ (1 : ℚ) ≤ 1 ∧
    (0 : ℝ) ≤ 0 ∧ (0 : ℝ) ≤ 1 ∧ (1 : ℝ) ≤ 1 ∧
    (stepsPerSec 0 ≤ stepsPerSec 1 ∧ stepsPerSecV1 0 ≤ stepsPerSecV1 1) :=
  ⟨le_refl _, by norm_num, le_refl _, le_refl _, by norm_num, le_refl _,
    speedMonotone_spec 0 1 0 1 (le_refl _) (by norm_num) (le_refl _)
      (le_refl _) (by norm_num) (le_refl _)⟩

/-- Claim C10: immediately after a reset, `head = 0`, `current` is the
freshly built seed row, `rows[0]` equals `current`, and the remaining
`H - 1` buffer rows are all-zero. -/
theorem resetGrid_spec (W H : ℕ) (seed : List ℕ) (hH : 0 < H) :
    (resetGrid W H seed).head = 0 ∧
    (resetGrid W H seed).current = seed ∧
    (resetGrid W H seed).rows.length = H ∧
    (resetGrid W H seed).rows.getD 0 [] = (resetGrid W H seed).current ∧
    ∀ i, 0 < i → i < H →
      (resetGrid W H seed).rows.getD i [] = List.replicate W 0 := by
  refine ⟨rfl, rfl, by simp [resetGrid], ?_, ?_⟩
  · exact getD_set_self _ 0 _ _ (by simpa [resetGrid] using hH)
  · intro i h0 hi
    show ((List.replicate H (List.replicate W 0)).set 0 seed).getD i [] = _
    rw [getD_set_ne _ 0 i _ _ (by omega), getD_replicate _ _ _ _ hi]

/-- Witness for C10 at `W = 3, H = 2`, single seed. -/
theorem resetGrid_spec_witness :
    0 < 2 ∧
    ((resetGrid 3 2 (singleSeed 3)).head = 0 ∧
      (resetGrid 3 2 (singleSeed 3)).current = singleSeed 3 ∧
      (resetGrid 3 2 (singleSeed 3)).rows.length = 2 ∧
      (resetGrid 3 2 (singleSeed 3)).rows.getD 0 [] =
        (resetGrid 3 2 (singleSeed 3)).current ∧
      ∀ i, 0 < i → i < 2 →
        (resetGrid 3 2 (singleSeed 3)).rows.getD i [] = List.replicate 3 0) :=
  ⟨by decide, resetGrid_spec 3 2 (singleSeed 3) (by decide)⟩

end CAArcade
